import Mathlib

/-! Verification of the conversation-archive parser (graph linearizer,
turn flattener, enrichment pipeline and persistence layer).

The Python modules are shallowly embedded: JSON data loaded by `json.load`
is modelled by the inductive type `JVal` (Python dicts become association
lists in insertion order, numbers become rationals), fallible or
environment-dependent operations (the local-time formatter used for
timestamps, the LLM completion endpoint, the wall clock, the git commit
probe, the random draw) are passed in as explicit function or value
parameters, and the unbounded backward `while` loop of the linearizer is
given explicit fuel, with a theorem showing that the fuel chosen by
`extract_linear_conversation` suffices on every acyclic mapping. -/

namespace Golgi

/-- JSON-like values as produced by json.load: null, booleans, numbers
(modelled as rationals), strings, arrays, and objects, the latter as
association lists of string keys in insertion order. -/
inductive JVal : Type where
  | null : JVal
  | bool : Bool → JVal
  | num : Rat → JVal
  | str : String → JVal
  | arr : List JVal → JVal
  | obj : List (String × JVal) → JVal

/-- Python dict lookup d.get(key): first binding of the key, if any. -/
def dget {α : Type} : List (String × α) → String → Option α
  | [], _ => none
  | (k, v) :: rest, key => if k == key then some v else dget rest key

/-- Python key-membership test (key in d) on an association list. -/
def hasKey {α : Type} (fs : List (String × α)) (k : String) : Bool :=
  fs.any (fun p => p.1 == k)

/-- Whether the needle character list occurs at the head of the haystack. -/
def headMatch : List Char → List Char → Bool
  | [], _ => true
  | _ :: _, [] => false
  | c :: cs, h :: hs => c == h && headMatch cs hs

/-- Whether the needle character list occurs anywhere in the haystack. -/
def occursIn : List Char → List Char → Bool
  | needle, [] => needle.isEmpty
  | needle, h :: hs => headMatch needle (h :: hs) || occursIn needle hs

/-- Python substring test (needle in hay) on strings. -/
def strContainsSub (hay needle : String) : Bool :=
  occursIn needle.data hay.data

/-- A dict-typed entry of content.parts. Only the four keys read by the
extractor are modelled; content_type values are strings per the archive
schema (the code calls .lower() on them). A missing key is none. -/
structure PartObj : Type where
  content_type : Option String
  asset_pointer : Option JVal
  image_url : Option JVal
  metadata : Option JVal

/-- One entry of content.parts: a literal string, a dict, or any other
JSON value (ignored by the extraction loop). -/
inductive Part : Type where
  | str : String → Part
  | obj : PartObj → Part
  | other : Part

/-- The value of content.parts: either not a list (yielding no text and no
images), or a list of parts. A missing parts key defaults to the empty
list. -/
inductive PartsVal : Type where
  | notList : PartsVal
  | list : List Part → PartsVal

/-- The message.content field as tested by `if message_data.get('content')`:
falsy (missing, null, or an empty dict) or a truthy dict carrying a
content.get('parts', []) value. -/
inductive ContentField : Type where
  | falsy : ContentField
  | truthy : PartsVal → ContentField

/-- The message.metadata dict, restricted to the keys the extractor reads
(message_data.get('metadata', {}) with all keys absent is the all-none
record). finish_details values are dicts per the archive schema. -/
structure MsgMeta : Type where
  model_slug : Option JVal
  finish_details : Option (List (String × JVal))
  weight : Option JVal
  end_turn : Option JVal
  recipient : Option JVal
  citations : Option JVal
  command : Option JVal

/-- A metadata record with every key absent. -/
def MsgMeta.empty : MsgMeta :=
  ⟨none, none, none, none, none, none, none⟩

/-- A raw message: author.role, the content field, create_time (epoch
seconds, possibly fractional, hence a rational; none when missing or
null), and the metadata dict. -/
structure RawMessage : Type where
  role : String
  content : ContentField
  create_time : Option Rat
  metadata : MsgMeta

/-- A node of the conversation mapping: an optional message (none models a
missing, null or otherwise falsy message value) and an optional parent id. -/
structure Node : Type where
  message : Option RawMessage
  parent : Option String

/-- A raw conversation: the four fields copied through by the processor,
the node mapping, and the current_node leaf pointer. -/
structure Conversation : Type where
  id : JVal
  title : JVal
  create_time : JVal
  update_time : JVal
  mapping : List (String × Node)
  current_node : Option String

/-- A clean message is built as a Python dict; it is modelled as an
association list in insertion order. -/
abbrev CleanMsg := List (String × JVal)

/-- Mirrors the image_info dict construction for a recognized dict part:
content_type is always stored, defaulting to the empty string via
part.get('content_type', ''); asset_pointer, image_url and metadata are
stored only when present in the part. -/
def imageInfo (p : PartObj) : List (String × JVal) :=
  [("content_type", JVal.str (p.content_type.getD ""))]
    ++ (match p.asset_pointer with | some v => [("asset_pointer", v)] | none => [])
    ++ (match p.image_url with | some v => [("image_url", v)] | none => [])
    ++ (match p.metadata with | some v => [("metadata", v)] | none => [])

/-- Python str.lower, modelled character by character. -/
def lowerStr (s : String) : String :=
  ⟨s.data.map Char.toLower⟩

/-- Mirrors the image-recognition test on a dict part: 'image' occurs in
content_type.lower() (with content_type defaulting to ''), or the part has
an asset_pointer key. -/
def isImagePart (p : PartObj) : Bool :=
  strContainsSub (lowerStr (p.content_type.getD "")) "image" || p.asset_pointer.isSome

/-- One step of the loop over content.parts, threading the
(text_content, images) accumulators: a string part is appended to the
text, a dict part recognized as an image appends its image_info dict, and
every other part is ignored. -/
def partsStep (acc : String × List (List (String × JVal))) (p : Part) :
    String × List (List (String × JVal)) :=
  match p with
  | .str s => (acc.1 ++ s, acc.2)
  | .obj po => if isImagePart po then (acc.1, acc.2 ++ [imageInfo po]) else acc
  | .other => acc

/-- The loop over content.parts, started from empty accumulators. -/
def processParts (ps : List Part) : String × List (List (String × JVal)) :=
  ps.foldl partsStep ("", [])

/-- The (text_content, images) pair for a parts value: a non-list parts
value is skipped by the isinstance guard and leaves both accumulators
empty (an empty list does the same, vacuously). -/
def partsResult : PartsVal → String × List (List (String × JVal))
  | .notList => ("", [])
  | .list ps => processParts ps

/-- Mirrors the timestamp rendering: a missing create_time, or one equal
to 0 (falsy in Python), yields no readable time; otherwise the local-time
formatter fmt (datetime.fromtimestamp followed by strftime, an
environment-dependent function passed as a parameter) is applied. -/
def readableTime (fmt : Rat → String) (t : Option Rat) : Option String :=
  match t with
  | none => none
  | some q => if q = 0 then none else some (fmt q)

/-- The JSON value stored under the timestamp key for a given create_time:
the rendered string, or null. -/
def tsVal (fmt : Rat → String) (t : Option Rat) : JVal :=
  match readableTime fmt t with
  | some s => JVal.str s
  | none => JVal.null

/-- A singleton field when the optional value is present, else nothing. -/
def optField (k : String) (v : Option JVal) : List (String × JVal) :=
  match v with
  | some x => [(k, x)]
  | none => []

/-- Mirrors the clean-message construction for a message whose content is
present: extract text and images from the parts, drop the message when
both are empty, and otherwise build the dict with role, text, timestamp
and model_slug always present, followed by the conditional images field
and the optional metadata passthrough fields. -/
def cleanOfMessage (fmt : Rat → String) (m : RawMessage) : Option CleanMsg :=
  match m.content with
  | .falsy => none
  | .truthy pv =>
    let tc := (partsResult pv).1
    let imgs := (partsResult pv).2
    if tc = "" ∧ imgs.isEmpty then none
    else
      some (
        [("role", JVal.str m.role),
         ("text", JVal.str tc),
         ("timestamp", tsVal fmt m.create_time),
         ("model_slug", m.metadata.model_slug.getD JVal.null)]
        ++ (if imgs.isEmpty then [] else [("images", JVal.arr (imgs.map JVal.obj))])
        ++ (match m.metadata.finish_details with
            | some fd => (match dget fd "type" with
                          | some v => [("finish_reason", v)]
                          | none => [])
            | none => [])
        ++ optField "weight" m.metadata.weight
        ++ optField "end_turn" m.metadata.end_turn
        ++ optField "recipient" m.metadata.recipient
        ++ optField "citations" m.metadata.citations
        ++ optField "command" m.metadata.command)

/-- The clean message contributed by a node: nothing when the message is
falsy, else whatever the message-level construction yields. -/
def cleanOfNode (fmt : Rat → String) (n : Node) : Option CleanMsg :=
  match n.message with
  | none => none
  | some m => cleanOfMessage fmt m

/-- Mirrors the backward while-loop of extract_linear_conversation with
explicit fuel (the Python loop is unbounded; extract_linear_conversation
supplies mapping.length + 1, enough for every acyclic mapping). The loop
runs while the current id is truthy (neither absent nor the empty
string); a missing id in the mapping breaks out; visible messages are
appended at the tail of the accumulator exactly as messages.append does;
none is returned only when the fuel runs out. -/
def walkFrom (fmt : Rat → String) (mapping : List (String × Node)) :
    Nat → Option String → List CleanMsg → Option (List CleanMsg)
  | _, none, acc => some acc
  | 0, some _, _ => none
  | Nat.succ fuel, some id, acc =>
    if id = "" then some acc
    else
      match dget mapping id with
      | none => some acc
      | some node =>
        walkFrom fmt mapping fuel node.parent
          (match cleanOfNode fmt node with
           | some c => acc ++ [c]
           | none => acc)

/-- Mirrors extract_linear_conversation: walk backward from current_node
and reverse the accumulated messages. The result is an Option only
because of the fuel; the chosen fuel is shown sufficient for acyclic
mappings in the termination theorem. -/
def extract_linear_conversation (fmt : Rat → String) (conv : Conversation) :
    Option (List CleanMsg) :=
  (walkFrom fmt conv.mapping (conv.mapping.length + 1) conv.current_node []).map
    List.reverse

/-- Mirrors flatten_turn: iterate the turn dict in insertion order and
return the tagged block for the first user or agent_mode key, or the
empty string when neither occurs. -/
def flatten_turn (turn : List (String × String)) (agent_mode : String) : String :=
  match turn with
  | [] => ""
  | (key, text) :: rest =>
    if key = "user" then "[user]\n" ++ text ++ "\n"
    else if key = agent_mode then "[agent]\n" ++ text ++ "\n"
    else flatten_turn rest agent_mode

/-- The summarization instruction prompt from config.py (apostrophes
written with hexadecimal escapes). -/
def SUMMARIZATION_PROMPT : String :=
  "\nYou are an expert in summarizing content. You will be given a conversation between an agent and a human and your task is to summarise the last message content in a way that no content\nis lost but we avoid all the details that are not relevant to understand the conversation the user is having. give brief simple bullet points (no nested, no formatting) that cover the topic of what was talked.\nThe content should be the minimum for someone reading the agent\x27s summary to understand the users\x27s response.\nKeep the language of the conversation.\n\n[OUTPUT EXAMPLE]\n- Explica al usuario qué evitar, cómo aliviar el dolor, qué alimentos consumir suaves.\n- Mejora típica en 48-72 horas, sugiere consultar con un médico si persisten síntomas graves.\n[END OF EXAMPLE]\n\nThis is the turn to summarise:\n"

/-- The memory-extraction instruction prompt from config.py. -/
def MEMORY_EXTRACTION_PROMPT : String :=
  "\n[System Role] You are a dedicated Memory Manager. Your sole purpose is to extract actionable, long-term user data from conversations to build a personalized user profile.\n\n[Extraction Criteria] Extract details ONLY if they fall into these categories:\n- Explicit Preferences: Likes, dislikes, dietary restrictions, favorite items/media.\n- Biographical current or historic facts: Name, location, job, age, family members, pets, facts about previous life.\n- Recurring Routines: Daily habits, schedules, frequent activities.\n- Future Intent: Specific upcoming plans, goals, or milestones.\n\n[Exclusion Criteria]\n- Ignore temporary states (e.g., \"I am hungry now\").\n- Ignore general conversation topics or opinions unless they indicate a strong preference.\n- Ignore summaries of the chat.\n\n[Format Constraints]\n- Output strictly a bulleted list.\n- Do not include introductory or concluding text.\n- The facts that you store should contain all the relevant context that make that piece of data wholesome.\n- If no relevant data is found, output \"None\".\n\n[Input Conversation]\n"

/-- A processed turn is a one- or two-key dict with string values. -/
abbrev Turn := List (String × String)

/-- Mirrors summarize_assistant_turn: one blocking completion call on the
concatenated prompt. The LLM endpoint (client and model) is modelled as
the oracle llm from full prompt to completion text. -/
def summarize_assistant_turn (llm : String → String)
    (turn_text conversation_context : String) : String :=
  llm (SUMMARIZATION_PROMPT ++ conversation_context ++ "assistant: " ++ turn_text)

/-- The role value of a clean message. Clean messages produced by the
linearizer always carry a string role, which the processor reads by
indexing. -/
def roleOf (m : CleanMsg) : String :=
  match dget m "role" with
  | some (JVal.str s) => s
  | _ => ""

/-- The text value of a clean message, always a string for messages
produced by the linearizer. -/
def textOf (m : CleanMsg) : String :=
  match dget m "text" with
  | some (JVal.str s) => s
  | _ => ""

/-- Mirrors the turn-building loop of process_conversation_with_summaries
over the linear messages, threading the processed turns list: a user
message appends a one-key turn, an assistant message joins the flattened
previous turns by newline as context, calls the summarizer, and appends a
two-key turn, and every other role is skipped. -/
def processTurns (llm : String → String) : List CleanMsg → List Turn → List Turn
  | [], acc => acc
  | m :: rest, acc =>
    if roleOf m = "user" then
      processTurns llm rest (acc ++ [[("user", textOf m)]])
    else if roleOf m = "assistant" then
      processTurns llm rest
        (acc ++ [[("assistant", textOf m),
                  ("summarised_conversation",
                   summarize_assistant_turn llm (textOf m)
                     (String.intercalate "\n"
                       (acc.map (fun t => flatten_turn t "summarised_conversation"))))]])
    else
      processTurns llm rest acc

/-- A processed conversation: the four copied header fields and the
turns list. -/
structure ProcessedConversation : Type where
  id : JVal
  title : JVal
  create_time : JVal
  update_time : JVal
  turns : List Turn

/-- Mirrors process_conversation_with_summaries: copy the header fields,
linearize, and build the turns. The Option comes only from the fuel of
the embedded linearizer. -/
def process_conversation_with_summaries (llm : String → String)
    (fmt : Rat → String) (conv : Conversation) : Option ProcessedConversation :=
  (extract_linear_conversation fmt conv).map (fun msgs =>
    { id := conv.id, title := conv.title, create_time := conv.create_time,
      update_time := conv.update_time, turns := processTurns llm msgs [] })

/-- Mirrors create_metadata from storage.py. The wall-clock timestamp and
the git commit are environment inputs and are passed as parameters; the
random_seed and n_samples keys are appended only when the corresponding
argument is not None. -/
def create_metadata (model llm_mode : String) (seed : Option Int)
    (n_samples : Option Int) (ts git : String) : List (String × JVal) :=
  [("processing_timestamp", JVal.str ts),
   ("git_commit", JVal.str git),
   ("model", JVal.str model),
   ("llm_mode", JVal.str llm_mode),
   ("prompts", JVal.obj
     [("summarization", JVal.str SUMMARIZATION_PROMPT.trim),
      ("memory_extraction", JVal.str MEMORY_EXTRACTION_PROMPT.trim)])]
  ++ (match seed with
      | some s => [("random_seed", JVal.num (s : Rat))]
      | none => [])
  ++ (match n_samples with
      | some n => [("n_samples", JVal.num (n : Rat))]
      | none => [])

/-- Mirrors the seed selection in main: when args.sample is truthy (given
and nonzero) the seed is the fixed 42 in prod mode or a fresh random draw
otherwise (the draw is an environment input passed as a parameter); with
no --sample, or --sample 0 (falsy), the seed stays None. -/
def mainSeed (sample : Option Int) (prodFlag : Bool) (draw : Int) : Option Int :=
  match sample with
  | none => none
  | some n => if n = 0 then none else some (if prodFlag then 42 else draw)

/-- The metadata envelope created by a CLI run: create_metadata applied to
the selected seed and the raw --sample argument. -/
def mainMetadata (model llm_mode : String) (sample : Option Int)
    (prodFlag : Bool) (draw : Int) (ts git : String) : List (String × JVal) :=
  create_metadata model llm_mode (mainSeed sample prodFlag draw) sample ts git

/-- Mirrors save_conversations, as the JSON value written to the file
(json.dump followed by json.load is the identity on these values, so the
file itself is modelled by the value): conversations are wrapped under a
conversations key, and a metadata key is appended only when the metadata
argument is truthy, i.e. a non-empty dict. -/
def save_conversations (conversations : List JVal)
    (metadata : Option (List (String × JVal))) : JVal :=
  JVal.obj
    ([("conversations", JVal.arr conversations)]
      ++ (match metadata with
          | some md => if md.isEmpty then [] else [("metadata", JVal.obj md)]
          | none => []))

/-- Mirrors load_processed_conversations on the loaded JSON value: a bare
array is the legacy format with null metadata; an object yields its
conversations value (defaulting to an empty list) and its metadata value,
where a missing metadata key and a null metadata value both come back as
Python None; any other top-level shape yields an empty list and None. -/
def load_processed_conversations (data : JVal) : JVal × Option JVal :=
  match data with
  | JVal.arr xs => (JVal.arr xs, none)
  | JVal.obj fs =>
    ((dget fs "conversations").getD (JVal.arr []),
     match dget fs "metadata" with
     | some JVal.null => none
     | some v => some v
     | none => none)
  | _ => (JVal.arr [], none)

/-! Spec-side definitions, written from the spec text rather than from
the source, for the refinement-style claims. -/

/-- Spec-side text extraction: the concatenation, in original order, of
exactly the string-typed entries of the parts list. -/
def strParts : List Part → String
  | [] => ""
  | Part.str s :: rest => s ++ strParts rest
  | _ :: rest => strParts rest

/-- Spec-side image extraction: the image_info dicts of the recognized
dict parts, in original order. -/
def specImages : List Part → List (List (String × JVal))
  | [] => []
  | Part.obj po :: rest =>
    if isImagePart po then imageInfo po :: specImages rest else specImages rest
  | _ :: rest => specImages rest

/-- Spec-side turn-building step, written from the claim: a user message
appends a one-key user turn; an assistant message appends a two-key turn
whose summary is the oracle applied to the fixed summarization prompt,
then the newline-joined flattening of the previously appended turns, then
the literal string "assistant: " and the message text; other roles append
nothing. -/
def specStep (llm : String → String) (acc : List Turn) (m : CleanMsg) : List Turn :=
  if roleOf m = "user" then acc ++ [[("user", textOf m)]]
  else if roleOf m = "assistant" then
    acc ++ [[("assistant", textOf m),
             ("summarised_conversation",
              llm (SUMMARIZATION_PROMPT
                ++ String.intercalate "\n"
                     (acc.map (fun t => flatten_turn t "summarised_conversation"))
                ++ "assistant: " ++ textOf m))]]
  else acc

/-- Spec-side turns of a linear message sequence: the left fold of the
spec-side step from the empty turns list. -/
def specTurns (llm : String → String) (msgs : List CleanMsg) : List Turn :=
  msgs.foldl (specStep llm) []

/-! Path infrastructure for the linearizer theorems. -/

/-- The ids of the nodes actually visited with a successful mapping
lookup, in walk order (leaf first), for a given fuel and start pointer. -/
def pathIds (mapping : List (String × Node)) : Nat → Option String → List String
  | _, none => []
  | 0, some _ => []
  | Nat.succ fuel, some id =>
    if id = "" then []
    else
      match dget mapping id with
      | none => []
      | some node => id :: pathIds mapping fuel node.parent

/-- The create_time of a node that contributes a clean message, as an
entry of an Option: none when the node contributes no message, some of
its (possibly absent) create_time when it does. -/
def visTime (fmt : Rat → String) (n : Node) : Option (Option Rat) :=
  match n.message with
  | none => none
  | some m => if (cleanOfMessage fmt m).isSome then some m.create_time else none

/-- The create_times of the visible messages returned by the linearizer,
in returned (chronologically reversed walk) order, position by position. -/
def extractTimes (fmt : Rat → String) (conv : Conversation) : List (Option Rat) :=
  ((pathIds conv.mapping (conv.mapping.length + 1) conv.current_node).filterMap
    (fun id => (dget conv.mapping id).bind (visTime fmt))).reverse

/-- A rank function certifying that the mapping has no cycles: every
parent edge between two ids present in the mapping strictly decreases the
rank. Every finite forest admits one (depth). -/
def EdgeDecreasing (mapping : List (String × Node)) (rank : String → Nat) : Prop :=
  ∀ id node p, dget mapping id = some node → node.parent = some p →
    (dget mapping p).isSome → rank p < rank id

/-- The create_times of the mapping are consistent with the tree
structure as measured by the rank: a node no deeper than another never
carries a strictly later create_time. -/
def TimeConsistent (mapping : List (String × Node)) (rank : String → Nat) : Prop :=
  ∀ id1 n1 m1 t1 id2 n2 m2 t2,
    dget mapping id1 = some n1 → n1.message = some m1 → m1.create_time = some t1 →
    dget mapping id2 = some n2 → n2.message = some m2 → m2.create_time = some t2 →
    rank id1 ≤ rank id2 → t1 ≤ t2

/-- Non-decreasing comparison on optional create_times: constrains only
positions where both are present. -/
def OptLE (a b : Option Rat) : Prop :=
  ∀ x y, a = some x → b = some y → x ≤ y

/-- Non-increasing comparison on optional create_times, for walk order. -/
def OptGE (a b : Option Rat) : Prop :=
  ∀ x y, a = some x → b = some y → y ≤ x

/-- The top-level fields of an object value; other values have none. -/
def topFields : JVal → List (String × JVal)
  | JVal.obj fs => fs
  | _ => []

/-- A clean message built by cleanOfMessage always stores the rendered
create_time under its timestamp key. -/
theorem dget_timestamp_of_clean (fmt : Rat → String) (m : RawMessage) (c : CleanMsg)
    (h : cleanOfMessage fmt m = some c) :
    dget c "timestamp" = some (tsVal fmt m.create_time) := by
  obtain ⟨r, cf, ct, md⟩ := m
  cases cf with
  | falsy => simp [cleanOfMessage] at h
  | truthy pv =>
    simp only [cleanOfMessage] at h
    split at h
    · exact absurd h (by simp)
    · obtain rfl : _ = c := Option.some.inj h
      rfl

/-- C4: flatten_turn renders a user turn as a user block, an agent turn
(under the default agent key) as an agent block, and returns the empty
string on any turn containing neither the user key nor the agent key. -/
theorem claim_C4_flatten_turn :
    (∀ X : String,
      flatten_turn [("user", X)] "summarised_conversation" = "[user]\n" ++ X ++ "\n") ∧
    (∀ Y : String,
      flatten_turn [("summarised_conversation", Y)] "summarised_conversation"
        = "[agent]\n" ++ Y ++ "\n") ∧
    (∀ turn : Turn,
      (∀ kv ∈ turn, kv.1 ≠ "user" ∧ kv.1 ≠ "summarised_conversation") →
      flatten_turn turn "summarised_conversation" = "") := by
  refine ⟨fun X => rfl, fun Y => rfl, fun turn h => ?_⟩
  induction turn with
  | nil => rfl
  | cons kv rest ih =>
    obtain ⟨k, t⟩ := kv
    obtain ⟨h1, h2⟩ := h (k, t) (List.mem_cons_self _ _)
    simp only [flatten_turn]
    rw [if_neg h1, if_neg h2]
    exact ih (fun x hx => h x (List.mem_cons_of_mem _ hx))

/-- Witness for C4 at the three concrete turns from the spec examples. -/
theorem claim_C4_witness :
    flatten_turn [("user", "X")] "summarised_conversation" = "[user]\nX\n" ∧
    flatten_turn [("summarised_conversation", "Y")] "summarised_conversation"
      = "[agent]\nY\n" ∧
    flatten_turn [("other", "Z")] "summarised_conversation" = "" :=
  ⟨claim_C4_flatten_turn.1 "X", claim_C4_flatten_turn.2.1 "Y",
   claim_C4_flatten_turn.2.2 [("other", "Z")] (by decide)⟩

/-- C5 amended: saving and loading reproduces the conversations exactly,
and the metadata exactly whenever it is None or a non-empty dict (an
empty metadata dict is falsy, is dropped on save, and loads back as
None — see the counterexample). -/
theorem claim_C5_round_trip (convs : List JVal) (md : Option (List (String × JVal)))
    (h : md = none ∨ ∃ l, md = some l ∧ l ≠ []) :
    load_processed_conversations (save_conversations convs md)
      = (JVal.arr convs, md.map JVal.obj) := by
  rcases h with rfl | ⟨l, rfl, hl⟩
  · rfl
  · rcases l with _ | ⟨kv, rest⟩
    · exact absurd rfl hl
    · rfl

/-- Witness for C5 at a one-conversation list and a one-key metadata dict. -/
theorem claim_C5_witness :
    load_processed_conversations
        (save_conversations [JVal.str "c"] (some [("k", JVal.str "v")]))
      = (JVal.arr [JVal.str "c"], some (JVal.obj [("k", JVal.str "v")])) :=
  claim_C5_round_trip [JVal.str "c"] (some [("k", JVal.str "v")])
    (Or.inr ⟨[("k", JVal.str "v")], rfl, by simp⟩)

/-- C5 counterexample: an empty metadata dict does not round-trip — it
loads back as None, not as the empty dict. -/
theorem claim_C5_counterexample :
    (load_processed_conversations (save_conversations [] (some []))).2 = none ∧
    some (JVal.obj []) ≠ (none : Option JVal) :=
  ⟨rfl, by simp⟩

/-- C10: empty-dict metadata is falsy, so save_conversations writes no
metadata key and a subsequent load returns None; in general the metadata
key appears in the saved file exactly when the supplied metadata is a
non-empty dict. -/
theorem claim_C10_empty_metadata (convs : List JVal)
    (omd : Option (List (String × JVal))) :
    save_conversations convs (some []) = JVal.obj [("conversations", JVal.arr convs)] ∧
    (load_processed_conversations (save_conversations convs (some []))).2 = none ∧
    (hasKey (topFields (save_conversations convs omd)) "metadata" = true ↔
      ∃ l, omd = some l ∧ l ≠ []) := by
  refine ⟨rfl, rfl, ?_⟩
  rcases omd with _ | l
  · simp [save_conversations, topFields, hasKey]
  · rcases l with _ | ⟨kv, rest⟩
    · simp [save_conversations, topFields, hasKey]
    · simp [save_conversations, topFields, hasKey]

/-- Witness for C10 at a concrete conversations list and both an empty
and a one-key metadata dict. -/
theorem claim_C10_witness :
    save_conversations [JVal.str "c"] (some [])
      = JVal.obj [("conversations", JVal.arr [JVal.str "c"])] ∧
    (load_processed_conversations (save_conversations [JVal.str "c"] (some []))).2
      = none ∧
    (hasKey (topFields (save_conversations [JVal.str "c"] (some [("k", JVal.null)])))
        "metadata" = true ↔
      ∃ l, (some [("k", JVal.null)] : Option (List (String × JVal))) = some l ∧ l ≠ []) :=
  ⟨(claim_C10_empty_metadata [JVal.str "c"] (some [])).1,
   (claim_C10_empty_metadata [JVal.str "c"] (some [])).2.1,
   (claim_C10_empty_metadata [JVal.str "c"] (some [("k", JVal.null)])).2.2⟩

/-- C6 amended: in the CLI metadata envelope, n_samples is present
exactly when --sample was given at all, while random_seed is present
exactly when --sample was given with a nonzero value; with --sample 0 the
two keys disagree (see the counterexample). -/
theorem claim_C6_sampling_keys (model llm_mode ts git : String) (sample : Option Int)
    (prodFlag : Bool) (draw : Int) :
    (hasKey (mainMetadata model llm_mode sample prodFlag draw ts git) "n_samples" = true
      ↔ sample ≠ none) ∧
    (hasKey (mainMetadata model llm_mode sample prodFlag draw ts git) "random_seed" = true
      ↔ ∃ n, sample = some n ∧ n ≠ 0) := by
  rcases sample with _ | n
  · simp [mainMetadata, mainSeed, create_metadata, hasKey]
  · by_cases hn : n = 0
    · subst hn
      simp [mainMetadata, mainSeed, create_metadata, hasKey]
    · simp [mainMetadata, mainSeed, create_metadata, hasKey, hn]

/-- Witness for C6 at --sample 3 in debug mode. -/
theorem claim_C6_witness :
    (hasKey (mainMetadata "m" "local" (some 3) false 7 "ts" "g") "n_samples" = true
      ↔ (some 3 : Option Int) ≠ none) ∧
    (hasKey (mainMetadata "m" "local" (some 3) false 7 "ts" "g") "random_seed" = true
      ↔ ∃ n, (some 3 : Option Int) = some n ∧ n ≠ 0) :=
  claim_C6_sampling_keys "m" "local" "ts" "g" (some 3) false 7

/-- C6 counterexample: with --sample 0, sampling was requested but the
envelope carries n_samples without random_seed, violating the claimed
both-present-iff-requested invariant. -/
theorem claim_C6_counterexample :
    hasKey (mainMetadata "m" "local" (some 0) false 7 "ts" "g") "n_samples" = true ∧
    hasKey (mainMetadata "m" "local" (some 0) false 7 "ts" "g") "random_seed" = false ∧
    (some (0 : Int) ≠ (none : Option Int)) :=
  ⟨rfl, rfl, by simp⟩

/-- C8 amended: for every recognized dict part, the image ref stores the
asset_pointer, image_url and metadata keys exactly when the source part
has them, but always stores a content_type key, whose value is the
source content_type when present and the empty string otherwise. -/
theorem claim_C8_image_ref_keys (p : PartObj) (h : isImagePart p = true) :
    dget (imageInfo p) "content_type" = some (JVal.str (p.content_type.getD "")) ∧
    hasKey (imageInfo p) "content_type" = true ∧
    (hasKey (imageInfo p) "asset_pointer" = true ↔ p.asset_pointer.isSome = true) ∧
    (hasKey (imageInfo p) "image_url" = true ↔ p.image_url.isSome = true) ∧
    (hasKey (imageInfo p) "metadata" = true ↔ p.metadata.isSome = true) := by
  obtain ⟨ct, ap, iu, md⟩ := p
  rcases ap with _ | a <;> rcases iu with _ | i <;> rcases md with _ | d <;>
    refine ⟨rfl, ?_, ?_, ?_, ?_⟩ <;> simp [imageInfo, hasKey]

/-- Witness for C8 at the image part from the repository's image test. -/
theorem claim_C8_witness :
    dget (imageInfo ⟨some "image_asset_pointer", some (JVal.str "file-abc123"), none,
        some (JVal.obj [("width", JVal.num 1024)])⟩) "content_type"
      = some (JVal.str "image_asset_pointer") ∧
    hasKey (imageInfo ⟨some "image_asset_pointer", some (JVal.str "file-abc123"), none,
        some (JVal.obj [("width", JVal.num 1024)])⟩) "asset_pointer" = true := by
  have h := claim_C8_image_ref_keys
    ⟨some "image_asset_pointer", some (JVal.str "file-abc123"), none,
     some (JVal.obj [("width", JVal.num 1024)])⟩ (by decide)
  exact ⟨h.1, (h.2.2.1).mpr rfl⟩

/-- C8 counterexample: a part recognized through asset_pointer alone
yields an image ref that contains a content_type key even though the
source part has no content_type key. -/
theorem claim_C8_counterexample :
    isImagePart ⟨none, some (JVal.str "file-abc"), none, none⟩ = true ∧
    hasKey (imageInfo ⟨none, some (JVal.str "file-abc"), none, none⟩)
      "content_type" = true ∧
    (⟨none, some (JVal.str "file-abc"), none, none⟩ : PartObj).content_type = none :=
  ⟨rfl, rfl, rfl⟩

/-- C9: a visible message whose create_time is 0 gets a null timestamp,
exactly as if its create_time were missing, because the code tests the
value by truthiness and 0 is falsy. -/
theorem claim_C9_zero_create_time (fmt : Rat → String) (m : RawMessage) (c : CleanMsg)
    (h0 : m.create_time = some 0) (h : cleanOfMessage fmt m = some c) :
    dget c "timestamp" = some JVal.null ∧
    cleanOfMessage fmt m = cleanOfMessage fmt { m with create_time := none } := by
  constructor
  · have hts := dget_timestamp_of_clean fmt m c h
    rw [h0] at hts
    simpa [tsVal, readableTime] using hts
  · obtain ⟨r, cf, ct, md⟩ := m
    simp only [RawMessage.create_time] at h0
    subst h0
    cases cf <;> simp [cleanOfMessage, tsVal, readableTime]

/-- Witness for C9 at a concrete user message with create_time 0. -/
theorem claim_C9_witness :
    dget [("role", JVal.str "user"), ("text", JVal.str "x"),
          ("timestamp", JVal.null), ("model_slug", JVal.null)] "timestamp"
      = some JVal.null ∧
    cleanOfMessage (fun q => toString q)
        ⟨"user", ContentField.truthy (PartsVal.list [Part.str "x"]), some 0, MsgMeta.empty⟩
      = cleanOfMessage (fun q => toString q)
        ⟨"user", ContentField.truthy (PartsVal.list [Part.str "x"]), none, MsgMeta.empty⟩ :=
  claim_C9_zero_create_time (fun q => toString q)
    ⟨"user", ContentField.truthy (PartsVal.list [Part.str "x"]), some 0, MsgMeta.empty⟩
    [("role", JVal.str "user"), ("text", JVal.str "x"),
     ("timestamp", JVal.null), ("model_slug", JVal.null)] rfl rfl

/-- The parts loop computes, from any starting accumulators, the spec-side
text concatenation and image list appended to them. -/
theorem foldl_partsStep (ps : List Part) :
    ∀ t i, ps.foldl partsStep (t, i) = (t ++ strParts ps, i ++ specImages ps) := by
  induction ps with
  | nil => intro t i; simp [strParts, specImages]
  | cons p rest ih =>
    intro t i
    cases p with
    | str s => simp [partsStep, strParts, specImages, ih, String.append_assoc]
    | obj po =>
      by_cases hpo : isImagePart po = true
      · simp [partsStep, strParts, specImages, hpo, ih]
      · simp [partsStep, strParts, specImages, hpo, ih]
    | other => simp [partsStep, strParts, specImages, ih]

/-- The extraction of a parts list yields exactly the spec-side text and
images. -/
theorem partsResult_eq (ps : List Part) :
    partsResult (PartsVal.list ps) = (strParts ps, specImages ps) := by
  simp [partsResult, processParts, foldl_partsStep]

/-- C2: the text of every produced clean message is the concatenation, in
original order, of exactly the string-typed parts (dict parts contribute
nothing to text), and a message whose parts produce empty text and no
recognized images produces no clean message at all. -/
theorem claim_C2_text_of_parts (fmt : Rat → String) (m : RawMessage) :
    (∀ c, cleanOfMessage fmt m = some c →
      ∃ ps, m.content = ContentField.truthy (PartsVal.list ps) ∧
        dget c "text" = some (JVal.str (strParts ps))) ∧
    (∀ ps, m.content = ContentField.truthy (PartsVal.list ps) →
      strParts ps = "" → specImages ps = [] → cleanOfMessage fmt m = none) := by
  obtain ⟨r, cf, ct, md⟩ := m
  constructor
  · intro c h
    cases cf with
    | falsy => simp [cleanOfMessage] at h
    | truthy pv =>
      cases pv with
      | notList => simp [cleanOfMessage, partsResult] at h
      | list ps =>
        refine ⟨ps, rfl, ?_⟩
        simp only [cleanOfMessage, partsResult_eq] at h
        split at h
        · exact absurd h (by simp)
        · obtain rfl : _ = c := Option.some.inj h
          rfl
  · intro ps hcf h1 h2
    simp only [ContentField.truthy.injEq] at hcf
    obtain rfl : cf = ContentField.truthy (PartsVal.list ps) := by
      simpa using congrArg id hcf
    simp [cleanOfMessage, partsResult_eq, h1, h2]

/-- Witness for C2 at a message mixing text, an image part and more text,
and at a message whose only part is neither a string nor a dict. -/
theorem claim_C2_witness :
    (∃ ps,
      (⟨"user", ContentField.truthy (PartsVal.list
          [Part.str "Look:", Part.obj ⟨some "image_asset_pointer",
            some (JVal.str "file-abc"), none, none⟩, Part.str " here"]),
        none, MsgMeta.empty⟩ : RawMessage).content
        = ContentField.truthy (PartsVal.list ps) ∧
      dget [("role", JVal.str "user"), ("text", JVal.str "Look: here"),
            ("timestamp", JVal.null), ("model_slug", JVal.null),
            ("images", JVal.arr [JVal.obj
              [("content_type", JVal.str "image_asset_pointer"),
               ("asset_pointer", JVal.str "file-abc")]])] "text"
        = some (JVal.str (strParts ps))) ∧
    cleanOfMessage (fun q => toString q)
      ⟨"user", ContentField.truthy (PartsVal.list [Part.other]), none, MsgMeta.empty⟩
      = none :=
  ⟨(claim_C2_text_of_parts (fun q => toString q)
      ⟨"user", ContentField.truthy (PartsVal.list
        [Part.str "Look:", Part.obj ⟨some "image_asset_pointer",
          some (JVal.str "file-abc"), none, none⟩, Part.str " here"]),
        none, MsgMeta.empty⟩).1
      [("role", JVal.str "user"), ("text", JVal.str "Look: here"),
       ("timestamp", JVal.null), ("model_slug", JVal.null),
       ("images", JVal.arr [JVal.obj
         [("content_type", JVal.str "image_asset_pointer"),
          ("asset_pointer", JVal.str "file-abc")]])] (by rfl),
   (claim_C2_text_of_parts (fun q => toString q)
      ⟨"user", ContentField.truthy (PartsVal.list [Part.other]), none, MsgMeta.empty⟩).2
      [Part.other] rfl rfl rfl⟩

/-- C3: when the walk reaches an id that is absent from the mapping it
stops there and returns what was accumulated so far, with no error; in
particular a conversation whose current_node is unmapped linearizes to
the empty list. -/
theorem claim_C3_missing_id (fmt : Rat → String) :
    (∀ mapping fuel id acc, id ≠ "" → dget mapping id = none →
      walkFrom fmt mapping (fuel + 1) (some id) acc = some acc) ∧
    (∀ conv : Conversation, ∀ id, conv.current_node = some id → id ≠ "" →
      dget conv.mapping id = none →
      extract_linear_conversation fmt conv = some []) := by
  constructor
  · intro mapping fuel id acc hne hd
    simp [walkFrom, hne, hd]
  · intro conv id hcur hne hd
    simp [extract_linear_conversation, hcur, walkFrom, hne, hd]

/-- Witness for C3 at the one-step walk and at a conversation whose
current_node is missing from its one-entry mapping. -/
theorem claim_C3_witness :
    walkFrom (fun q => toString q) [("a", ⟨none, none⟩)] 1 (some "ghost")
      [[("role", JVal.str "user")]] = some [[("role", JVal.str "user")]] ∧
    extract_linear_conversation (fun q => toString q)
      ⟨JVal.null, JVal.null, JVal.null, JVal.null, [("a", ⟨none, none⟩)], some "ghost"⟩
      = some [] :=
  ⟨(claim_C3_missing_id (fun q => toString q)).1 [("a", ⟨none, none⟩)] 0 "ghost"
      [[("role", JVal.str "user")]] (by decide) rfl,
   (claim_C3_missing_id (fun q => toString q)).2
      ⟨JVal.null, JVal.null, JVal.null, JVal.null, [("a", ⟨none, none⟩)], some "ghost"⟩
      "ghost" rfl (by decide) rfl⟩

/-- A key whose lookup succeeds occurs among the keys of the list. -/
theorem mem_keys_of_dget {α : Type} :
    ∀ (l : List (String × α)) (k : String), (dget l k).isSome = true →
      k ∈ l.map Prod.fst := by
  intro l
  induction l with
  | nil => intro k h; simp [dget] at h
  | cons kv rest ih =>
    intro k h
    obtain ⟨k2, v⟩ := kv
    simp only [dget] at h
    by_cases he : (k2 == k) = true
    · have hk : k2 = k := by simpa using he
      simp [hk]
    · rw [if_neg he] at h
      simp [ih k h]

/-- The rank of an id normalized against the mapping keys: the number of
distinct keys of strictly smaller rank. It is bounded by the number of
keys and still decreases along parent edges. -/
def rankNorm (mapping : List (String × Node)) (rank : String → Nat) (id : String) : Nat :=
  ((mapping.map Prod.fst).toFinset.filter (fun k => rank k < rank id)).card

/-- Normalization preserves the edge-decreasing property. -/
theorem rankNorm_edge (mapping : List (String × Node)) (rank : String → Nat)
    (hdec : EdgeDecreasing mapping rank) :
    EdgeDecreasing mapping (rankNorm mapping rank) := by
  intro id node p hdg hpar hps
  have hlt : rank p < rank id := hdec id node p hdg hpar hps
  have hpmem : p ∈ (mapping.map Prod.fst).toFinset :=
    List.mem_toFinset.mpr (mem_keys_of_dget mapping p hps)
  have hsub : (mapping.map Prod.fst).toFinset.filter (fun k => rank k < rank p)
      ⊆ (mapping.map Prod.fst).toFinset.filter (fun k => rank k < rank id) := by
    intro k hk
    obtain ⟨hk1, hk2⟩ := Finset.mem_filter.mp hk
    exact Finset.mem_filter.mpr ⟨hk1, lt_trans hk2 hlt⟩
  exact Finset.card_lt_card ((Finset.ssubset_iff_of_subset hsub).mpr
    ⟨p, Finset.mem_filter.mpr ⟨hpmem, hlt⟩,
     fun hc => absurd (Finset.mem_filter.mp hc).2 (lt_irrefl _)⟩)

/-- The normalized rank of any id present in the mapping is below the
mapping length. -/
theorem rankNorm_lt_length (mapping : List (String × Node)) (rank : String → Nat)
    (id : String) (hps : (dget mapping id).isSome = true) :
    rankNorm mapping rank id < mapping.length := by
  have hmem : id ∈ (mapping.map Prod.fst).toFinset :=
    List.mem_toFinset.mpr (mem_keys_of_dget mapping id hps)
  have h1 : rankNorm mapping rank id < (mapping.map Prod.fst).toFinset.card :=
    Finset.card_lt_card ((Finset.ssubset_iff_of_subset (Finset.filter_subset _ _)).mpr
      ⟨id, hmem, fun hc => absurd (Finset.mem_filter.mp hc).2 (lt_irrefl _)⟩)
  calc rankNorm mapping rank id < (mapping.map Prod.fst).toFinset.card := h1
    _ ≤ (mapping.map Prod.fst).length := List.toFinset_card_le _
    _ = mapping.length := by simp

/-- With enough fuel relative to an edge-decreasing rank, the walk never
runs out: the embedded loop terminates with a result. -/
theorem walkFrom_isSome (fmt : Rat → String) (mapping : List (String × Node))
    (rnk : String → Nat) (hdec : EdgeDecreasing mapping rnk) :
    ∀ fuel cur acc, 1 ≤ fuel →
      (∀ id, cur = some id → (dget mapping id).isSome = true → rnk id + 2 ≤ fuel) →
      (walkFrom fmt mapping fuel cur acc).isSome = true := by
  intro fuel
  induction fuel with
  | zero => intro cur acc h1 _; omega
  | succ f ih =>
    intro cur acc _ hbound
    cases cur with
    | none => simp [walkFrom]
    | some id =>
      by_cases hid : id = ""
      · simp [walkFrom, hid]
      · cases hdg : dget mapping id with
        | none => simp [walkFrom, hid, hdg]
        | some node =>
          have hb := hbound id rfl (by simp [hdg])
          simp only [walkFrom, if_neg hid, hdg]
          apply ih
          · omega
          · intro p hp hps
            have hlt := hdec id node p hdg hp hps
            omega

/-- The walk result is exactly the accumulator followed by the clean
messages of the nodes along the visited path, in walk order. -/
theorem walkFrom_eq_pathIds (fmt : Rat → String) (mapping : List (String × Node)) :
    ∀ fuel cur acc out, walkFrom fmt mapping fuel cur acc = some out →
      out = acc ++ (pathIds mapping fuel cur).filterMap
        (fun id => (dget mapping id).bind (cleanOfNode fmt)) := by
  intro fuel
  induction fuel with
  | zero =>
    intro cur acc out h
    cases cur with
    | none =>
      obtain rfl := Option.some.inj h
      simp [pathIds]
    | some id => simp [walkFrom] at h
  | succ f ih =>
    intro cur acc out h
    cases cur with
    | none =>
      obtain rfl := Option.some.inj h
      simp [pathIds]
    | some id =>
      by_cases hid : id = ""
      · simp only [walkFrom, if_pos hid] at h
        obtain rfl := Option.some.inj h
        simp [pathIds, hid]
      · cases hdg : dget mapping id with
        | none =>
          simp only [walkFrom, if_neg hid, hdg] at h
          obtain rfl := Option.some.inj h
          simp [pathIds, hid, hdg]
        | some node =>
          simp only [walkFrom, if_neg hid, hdg] at h
          cases hcn : cleanOfNode fmt node with
          | none =>
            rw [hcn] at h
            rw [ih node.parent acc out h]
            simp [pathIds, if_neg hid, hdg, List.filterMap_cons, hcn]
          | some c =>
            rw [hcn] at h
            rw [ih node.parent (acc ++ [c]) out h]
            simp [pathIds, if_neg hid, hdg, List.filterMap_cons, hcn,
              List.append_assoc]

/-- Position-by-position alignment of two filterMaps whose functions
succeed on exactly the same inputs, with aligned results. -/
theorem forall2_filterMap {α β γ : Type} (R : β → γ → Prop) (f : α → Option β)
    (g : α → Option γ) :
    ∀ l : List α,
      (∀ a ∈ l, (f a = none ∧ g a = none) ∨
        ∃ b c, f a = some b ∧ g a = some c ∧ R b c) →
      List.Forall₂ R (l.filterMap f) (l.filterMap g) := by
  intro l
  induction l with
  | nil => intro; simp
  | cons a rest ih =>
    intro h
    rcases h a (List.mem_cons_self _ _) with ⟨hf, hg⟩ | ⟨b, c, hf, hg, hr⟩
    · simpa [List.filterMap_cons, hf, hg] using
        ih (fun x hx => h x (List.mem_cons_of_mem _ hx))
    · simpa [List.filterMap_cons, hf, hg] using
        List.Forall₂.cons hr (ih (fun x hx => h x (List.mem_cons_of_mem _ hx)))

/-- A pointer whose path is nonempty is present in the mapping. -/
theorem pathIds_nonnil (mapping : List (String × Node)) :
    ∀ fuel p, pathIds mapping fuel (some p) ≠ [] → (dget mapping p).isSome = true := by
  intro fuel p h
  cases fuel with
  | zero => simp [pathIds] at h
  | succ f =>
    by_cases hp : p = ""
    · simp [pathIds, hp] at h
    · cases hdg : dget mapping p with
      | none => simp [pathIds, hp, hdg] at h
      | some node => simp [hdg]

/-- Every id on the path is present in the mapping and is either the
start id or of strictly smaller rank, for an edge-decreasing rank. -/
theorem pathIds_spec (mapping : List (String × Node)) (rank : String → Nat)
    (hdec : EdgeDecreasing mapping rank) :
    ∀ fuel cur x, x ∈ pathIds mapping fuel cur →
      (dget mapping x).isSome = true ∧
      ∀ id, cur = some id → (x = id ∨ rank x < rank id) := by
  intro fuel
  induction fuel with
  | zero =>
    intro cur x hx
    cases cur <;> simp [pathIds] at hx
  | succ f ih =>
    intro cur x hx
    cases cur with
    | none => simp [pathIds] at hx
    | some id =>
      by_cases hid : id = ""
      · simp [pathIds, hid] at hx
      · cases hdg : dget mapping id with
        | none => simp [pathIds, hid, hdg] at hx
        | some node =>
          simp only [pathIds, if_neg hid, hdg] at hx
          rcases List.mem_cons.mp hx with rfl | hx2
          · refine ⟨by simp [hdg], fun id2 hinj => Or.inl (Option.some.inj hinj)⟩
          · obtain ⟨hs, hr⟩ := ih node.parent x hx2
            refine ⟨hs, fun id2 hinj => ?_⟩
            have hid2 : id = id2 := Option.some.inj hinj
            subst hid2
            cases hpar : node.parent with
            | none => rw [hpar] at hx2; simp [pathIds] at hx2
            | some p =>
              rw [hpar] at hx2
              have hps := pathIds_nonnil mapping f p (List.ne_nil_of_mem hx2)
              have hpid := hdec id node p hdg hpar hps
              rcases hr p (by rw [hpar]) with rfl | hlt
              · exact Or.inr hpid
              · exact Or.inr (lt_trans hlt hpid)

/-- Along the path the rank strictly decreases, pairwise. -/
theorem pathIds_pairwise (mapping : List (String × Node)) (rank : String → Nat)
    (hdec : EdgeDecreasing mapping rank) :
    ∀ fuel cur, List.Pairwise (fun a b => rank b < rank a) (pathIds mapping fuel cur) := by
  intro fuel
  induction fuel with
  | zero => intro cur; cases cur <;> simp [pathIds]
  | succ f ih =>
    intro cur
    cases cur with
    | none => simp [pathIds]
    | some id =>
      by_cases hid : id = ""
      · simp [pathIds, hid]
      · cases hdg : dget mapping id with
        | none => simp [pathIds, hid, hdg]
        | some node =>
          simp only [pathIds, if_neg hid, hdg]
          refine List.Pairwise.cons (fun x hx => ?_) (ih node.parent)
          cases hpar : node.parent with
          | none => rw [hpar] at hx; simp [pathIds] at hx
          | some p =>
            rw [hpar] at hx
            have hps := pathIds_nonnil mapping f p (List.ne_nil_of_mem hx)
            have hpid := hdec id node p hdg hpar hps
            rcases (pathIds_spec mapping rank hdec f (some p) x hx).2 p rfl with rfl | hlt
            · exact hpid
            · exact lt_trans hlt hpid

/-- C1 amended: for every conversation whose mapping forms a tree with no
cycles (certified by an edge-decreasing rank), extraction terminates,
with the output aligned position by position with extractTimes; and
provided additionally the mapping's create_times are consistent with the
tree structure (a node no deeper than another never carries a later
create_time), the returned messages are in non-decreasing create_time
order: extractTimes is pairwise non-decreasing wherever two entries are
present. -/
theorem claim_C1_linearize_sorted (fmt : Rat → String) (conv : Conversation)
    (rank : String → Nat)
    (hdec : EdgeDecreasing conv.mapping rank) :
    (∃ out, extract_linear_conversation fmt conv = some out ∧
      List.Forall₂ (fun c t => dget c "timestamp" = some (tsVal fmt t)) out
        (extractTimes fmt conv)) ∧
    (TimeConsistent conv.mapping rank →
      List.Pairwise OptLE (extractTimes fmt conv)) := by
  have hterm := walkFrom_isSome fmt conv.mapping (rankNorm conv.mapping rank)
    (rankNorm_edge conv.mapping rank hdec) (conv.mapping.length + 1)
    conv.current_node [] (by omega)
    (fun id _ hps => by
      have := rankNorm_lt_length conv.mapping rank id hps
      omega)
  obtain ⟨res, hres⟩ := Option.isSome_iff_exists.mp hterm
  have hcorr := walkFrom_eq_pathIds fmt conv.mapping (conv.mapping.length + 1)
    conv.current_node [] res hres
  rw [List.nil_append] at hcorr
  refine ⟨⟨res.reverse, ?_, ?_⟩, ?_⟩
  · simp [extract_linear_conversation, hres]
  · rw [extractTimes, List.forall₂_reverse_iff, hcorr]
    apply forall2_filterMap
    intro a _
    cases hdg : dget conv.mapping a with
    | none => exact Or.inl ⟨by simp [hdg], by simp [hdg]⟩
    | some node =>
      cases hm : node.message with
      | none =>
        exact Or.inl ⟨by simp [hdg, cleanOfNode, hm], by simp [hdg, visTime, hm]⟩
      | some m =>
        cases hc : cleanOfMessage fmt m with
        | none =>
          exact Or.inl ⟨by simp [hdg, cleanOfNode, hm, hc],
            by simp [hdg, visTime, hm, hc]⟩
        | some c =>
          exact Or.inr ⟨c, m.create_time, by simp [hdg, cleanOfNode, hm, hc],
            by simp [hdg, visTime, hm, hc], dget_timestamp_of_clean fmt m c hc⟩
  · intro htime
    have hpw := pathIds_pairwise conv.mapping rank hdec (conv.mapping.length + 1)
      conv.current_node
    have hpwT : List.Pairwise OptGE
        ((pathIds conv.mapping (conv.mapping.length + 1) conv.current_node).filterMap
          (fun id => (dget conv.mapping id).bind (visTime fmt))) := by
      refine List.Pairwise.filterMap _ (fun a a2 hr b hb b2 hb2 => ?_) hpw
      intro x y hx hy
      rw [Option.mem_def] at hb hb2
      obtain ⟨node, hdg, hv⟩ := Option.bind_eq_some.mp hb
      obtain ⟨node2, hdg2, hv2⟩ := Option.bind_eq_some.mp hb2
      obtain ⟨m, hm, hbv⟩ : ∃ m, node.message = some m ∧ b = m.create_time := by
        cases hmm : node.message with
        | none => simp [visTime, hmm] at hv
        | some m =>
          simp only [visTime, hmm] at hv
          split at hv
          · exact ⟨m, rfl, (Option.some.inj hv).symm⟩
          · exact absurd hv (by simp)
      obtain ⟨m2, hm2, hbv2⟩ : ∃ m2, node2.message = some m2 ∧ b2 = m2.create_time := by
        cases hmm : node2.message with
        | none => simp [visTime, hmm] at hv2
        | some m2 =>
          simp only [visTime, hmm] at hv2
          split at hv2
          · exact ⟨m2, rfl, (Option.some.inj hv2).symm⟩
          · exact absurd hv2 (by simp)
      exact htime a2 node2 m2 y a node m x hdg2 hm2 (by rw [← hbv2, hy])
        hdg hm (by rw [← hbv, hx]) (le_of_lt hr)
    rw [extractTimes, List.pairwise_reverse]
    exact hpwT.imp (fun h x y hx hy => h y x hy hx)

/-- The one-node conversation used as the C1 witness input. -/
def wcConv : Conversation :=
  ⟨JVal.null, JVal.null, JVal.null, JVal.null,
   [("a", ⟨some ⟨"user", ContentField.truthy (PartsVal.list [Part.str "x"]),
     some 5, MsgMeta.empty⟩, none⟩)], some "a"⟩

/-- The constant rank certifies acyclicity of the one-node mapping. -/
theorem wcConv_hdec : EdgeDecreasing wcConv.mapping (fun _ => 0) := by
  intro id node p hdg hpar _
  simp only [wcConv, dget] at hdg
  split at hdg
  · obtain rfl := Option.some.inj hdg
    exact absurd hpar (by simp)
  · exact Option.noConfusion hdg

/-- All create_times of the one-node mapping are equal, so it is
time-consistent for the constant rank. -/
theorem wcConv_htime : TimeConsistent wcConv.mapping (fun _ => 0) := by
  intro id1 n1 m1 t1 id2 n2 m2 t2 h1 hm1 ht1 h2 hm2 ht2 _
  simp only [wcConv, dget] at h1 h2
  split at h1
  · obtain rfl := Option.some.inj h1
    split at h2
    · obtain rfl := Option.some.inj h2
      simp only at hm1 hm2
      obtain rfl := Option.some.inj hm1
      obtain rfl := Option.some.inj hm2
      simp only at ht1 ht2
      obtain rfl := Option.some.inj ht1
      obtain rfl := Option.some.inj ht2
      exact le_refl _
    · exact Option.noConfusion h2
  · exact Option.noConfusion h1

/-- Witness for C1 at the one-node conversation with create_time 5,
discharging the acyclicity hypothesis and, for the ordering conjunct,
the time-consistency premise. -/
theorem claim_C1_witness :
    (∃ out, extract_linear_conversation (fun q => toString q) wcConv = some out ∧
      List.Forall₂ (fun c t => dget c "timestamp"
          = some (tsVal (fun q => toString q) t)) out
        (extractTimes (fun q => toString q) wcConv)) ∧
    List.Pairwise OptLE (extractTimes (fun q => toString q) wcConv) :=
  ⟨(claim_C1_linearize_sorted (fun q => toString q) wcConv (fun _ => 0) wcConv_hdec).1,
   (claim_C1_linearize_sorted (fun q => toString q) wcConv (fun _ => 0) wcConv_hdec).2
     wcConv_htime⟩

/-- The two-node conversation refuting the unconditional ordering: the
leaf message has create_time 5 while its parent (the root) has 10. -/
def cxConv : Conversation :=
  ⟨JVal.null, JVal.null, JVal.null, JVal.null,
   [("root", ⟨some ⟨"user", ContentField.truthy (PartsVal.list [Part.str "A"]),
       some 10, MsgMeta.empty⟩, none⟩),
    ("child", ⟨some ⟨"assistant", ContentField.truthy (PartsVal.list [Part.str "B"]),
       some 5, MsgMeta.empty⟩, some "root"⟩)],
   some "child"⟩

/-- C1 counterexample: a two-node mapping that is a tree with no cycles
(certified by a rank), on which extraction succeeds yet returns the
root's message (create_time 10) before the leaf's (create_time 5): the
returned sequence is not non-decreasing in create_time. -/
theorem claim_C1_counterexample :
    EdgeDecreasing cxConv.mapping (fun id => if id = "child" then 1 else 0) ∧
    extractTimes (fun q => toString q) cxConv = [some 10, some 5] ∧
    ¬ OptLE (some 10) (some 5) ∧
    List.Forall₂
      (fun c t => dget c "timestamp" = some (tsVal (fun q => toString q) t))
      ((extract_linear_conversation (fun q => toString q) cxConv).getD [])
      (extractTimes (fun q => toString q) cxConv) := by
  refine ⟨?_, rfl, ?_, ?_⟩
  · intro id node p hdg hpar hps
    simp only [cxConv, dget] at hdg
    by_cases h1 : ("root" == id) = true
    · rw [if_pos h1] at hdg
      obtain rfl := Option.some.inj hdg
      exact absurd hpar (by simp)
    · rw [if_neg h1] at hdg
      by_cases h2 : ("child" == id) = true
      · rw [if_pos h2] at hdg
        obtain rfl := Option.some.inj hdg
        obtain rfl : p = "root" := (Option.some.inj hpar).symm
        obtain rfl : "child" = id := by simpa using h2
        decide
      · rw [if_neg h2] at hdg
        exact Option.noConfusion hdg
  · intro h
    have h10 := h 10 5 rfl rfl
    norm_num at h10
  · exact List.Forall₂.cons rfl (List.Forall₂.cons rfl List.Forall₂.nil)

/-- The processing loop agrees, from any starting turns list, with the
spec-side left fold. -/
theorem processTurns_eq_spec (llm : String → String) :
    ∀ msgs acc, processTurns llm msgs acc = msgs.foldl (specStep llm) acc := by
  intro msgs
  induction msgs with
  | nil => intro acc; rfl
  | cons m rest ih =>
    intro acc
    by_cases hu : roleOf m = "user"
    · simp [processTurns, specStep, hu, ih]
    · by_cases ha : roleOf m = "assistant"
      · simp [processTurns, specStep, summarize_assistant_turn, hu, ha, ih]
      · simp [processTurns, specStep, hu, ha, ih]

/-- C7: the processor copies the four header fields and builds its turns
from the linearized messages exactly as the spec-side fold prescribes: a
user message appends a one-key user turn, an assistant message appends an
assistant turn whose summary is the oracle applied to the fixed
summarization prompt followed by the newline-joined flattening of the
previously appended turns and the literal string with the message text,
and any other role appends no turn. -/
theorem claim_C7_process_turns (llm : String → String) (fmt : Rat → String)
    (conv : Conversation) (msgs : List CleanMsg)
    (h : extract_linear_conversation fmt conv = some msgs) :
    process_conversation_with_summaries llm fmt conv
      = some { id := conv.id, title := conv.title, create_time := conv.create_time,
               update_time := conv.update_time, turns := specTurns llm msgs } := by
  simp [process_conversation_with_summaries, h, specTurns, processTurns_eq_spec]

/-- The two-message conversation used as the C7 witness input. -/
def wpConv : Conversation :=
  ⟨JVal.str "c1", JVal.str "t", JVal.num 1, JVal.num 2,
   [("root", ⟨none, none⟩),
    ("m1", ⟨some ⟨"user", ContentField.truthy (PartsVal.list [Part.str "Hello"]),
      none, MsgMeta.empty⟩, some "root"⟩),
    ("m2", ⟨some ⟨"assistant", ContentField.truthy (PartsVal.list [Part.str "Hi"]),
      none, MsgMeta.empty⟩, some "m1"⟩)],
   some "m2"⟩

/-- Witness for C7 at a user-then-assistant conversation and a concrete
oracle. -/
theorem claim_C7_witness :
    process_conversation_with_summaries (fun s => "S(" ++ s ++ ")")
        (fun q => toString q) wpConv
      = some { id := JVal.str "c1", title := JVal.str "t",
               create_time := JVal.num 1, update_time := JVal.num 2,
               turns := specTurns (fun s => "S(" ++ s ++ ")")
                 [[("role", JVal.str "user"), ("text", JVal.str "Hello"),
                   ("timestamp", JVal.null), ("model_slug", JVal.null)],
                  [("role", JVal.str "assistant"), ("text", JVal.str "Hi"),
                   ("timestamp", JVal.null), ("model_slug", JVal.null)]] } :=
  claim_C7_process_turns (fun s => "S(" ++ s ++ ")") (fun q => toString q) wpConv
    [[("role", JVal.str "user"), ("text", JVal.str "Hello"),
      ("timestamp", JVal.null), ("model_slug", JVal.null)],
     [("role", JVal.str "assistant"), ("text", JVal.str "Hi"),
      ("timestamp", JVal.null), ("model_slug", JVal.null)]] rfl

end Golgi
